import Mathlib

/-!
Shallow embedding of `watson_graphing.py` (k4j8/watson-graphing).

Conventions of the embedding:
* A pandas cell that may hold `NaN` (a missing value) instead of a list or a
  string is modelled as an `Option`.
* Python's `i[0]` on a string raises `IndexError` when the string is empty;
  a computation that may raise is modelled in `Except Unit`.
* Floating-point durations are modelled as exact rationals `ℚ`; the code's
  arithmetic on them (integer seconds divided by 3600, sums) is exact there.
* A pandas timestamp difference `stop - start` is a `timedelta64[ns]`; we
  model it by its total number of nanoseconds (`ℕ`, the claims restrict to
  `stop ≥ start`).
-/

namespace WatsonGraphing

/-- Python `s[0]`: the first character of a string, raising `IndexError`
(modelled as `Except.error ()`) on the empty string. -/
def firstChar (s : String) : Except Unit Char :=
  match s.data with
  | [] => .error ()
  | c :: _ => .ok c

/-- `striplist` (watson_graphing.py:40-46): strips spaces from each element
when the input is a list, returns the input unchanged otherwise (the non-list
case, a pandas `NaN`, is `none`). -/
def striplist (lst : Option (List String)) : Option (List String) :=
  match lst with
  | some l => some (l.map String.trim)
  | none => none

/-- Loop body of `find_location`: scan for the first element whose first
character is `'@'`; inspecting the first character of an empty element
raises. -/
def findLocationGo (l : List String) : Except Unit (Option String) :=
  match l with
  | [] => .ok none
  | i :: rest =>
      match firstChar i with
      | .error e => .error e
      | .ok c => if c = '@' then .ok (some i) else findLocationGo rest

/-- `find_location` (watson_graphing.py:49-55): first list item beginning
with `'@'`; falls through (returns Python `None`) when the input is not a
list or no item matches. -/
def find_location (lst : Option (List String)) : Except Unit (Option String) :=
  match lst with
  | some l => findLocationGo l
  | none => .ok none

/-- Loop body of `find_attributes`: collect, in order, the elements whose
first character is not `'@'`; inspecting the first character of an empty
element raises. -/
def findAttributesGo (l : List String) : Except Unit (List String) :=
  match l with
  | [] => .ok []
  | i :: rest =>
      match firstChar i with
      | .error e => .error e
      | .ok c =>
          match findAttributesGo rest with
          | .error e => .error e
          | .ok acc => if c ≠ '@' then .ok (i :: acc) else .ok acc

/-- `find_attributes` (watson_graphing.py:58-66): all items not beginning
with `'@'`; starts from the empty list, so a non-list input yields `[]`. -/
def find_attributes (lst : Option (List String)) : Except Unit (List String) :=
  match lst with
  | some l => findAttributesGo l
  | none => .ok []

/-- Pure description of a token beginning with `'@'` (only meaningful for
non-empty tokens, where `firstChar` cannot raise). -/
def startsAt (s : String) : Bool :=
  s.data.head? == some '@'

/-- Pure value of `find_attributes` on a list of non-empty tokens. -/
def attrsOf (l : List String) : List String :=
  l.filter (fun t => !startsAt t)

/-- Pure value of `find_location` on a list of non-empty tokens. -/
def locOf (l : List String) : Option String :=
  l.find? startsAt

/-- `(df.stop - df.start).dt.seconds` (watson_graphing.py:82): the seconds
component of the timedelta, i.e. the whole seconds with full days removed. -/
def dtSeconds (totalNs : ℕ) : ℕ :=
  totalNs / 1000000000 % 86400

/-- The derived `time` column (watson_graphing.py:82): `.dt.seconds` divided
by 3600, in hours. -/
def durationHours (totalNs : ℕ) : ℚ :=
  (dtSeconds totalNs : ℚ) / 3600

/-- Modelled from the spec: `floor((stop-start).total_seconds()) / 3600`, the
full elapsed whole seconds (days included) divided by 3600. Comparator for the
refinement claim about the `time` column. -/
def durationSpecHours (totalNs : ℕ) : ℚ :=
  ((totalNs / 1000000000 : ℕ) : ℚ) / 3600

/-- The `flag_args` list of `parse_args` (watson_graphing.py:23-26). -/
def flag_args : List String :=
  ["c", "current", "C", "no-current", "r", "reverse", "R",
   "no-reverse", "f", "from", "t", "to", "y", "year", "m",
   "month", "l", "luna", "w", "week", "d", "day", "a", "all",
   "p", "project", "T", "tag", "ignore-project", "ignore-tag"]

/-- `parse_args` (watson_graphing.py:19-37): token by token, a token equal to
one of `flag_args` is emitted with a `--` in front, any other token is
emitted unchanged. -/
def parse_args (args : List String) : List String :=
  match args with
  | [] => []
  | a :: rest =>
      (if a ∈ flag_args then "--" ++ a else a) :: parse_args rest

/-- The runtime value of `args.plot`: either a plain string (the argparse
default is the string `"all"`) or a list of the tokens the user passed
(argparse `nargs='+'` always produces a list). -/
inductive PlotVal where
  | str (s : String)
  | list (l : List String)
deriving DecidableEq

/-- The Python test `args.plot == 'all'` (watson_graphing.py:113): a list
never compares equal to a string. -/
def plotEqAllStr (v : PlotVal) : Bool :=
  match v with
  | .str s => s == "all"
  | .list _ => false

/-- The `subplots` value (watson_graphing.py:112-116). In the `else` branch
`subplots = args.plot`; iterating it when it is a Python string yields its
one-character substrings, when it is a list yields its elements. -/
def subplotsOf (v : PlotVal) : List String :=
  if plotEqAllStr v then ["hours", "project", "attributes", "location"]
  else
    match v with
    | .str s => s.data.map (fun c => String.mk [c])
    | .list l => l

/-- One dataframe row as the aggregation code sees it: the value of the
dimension column being plotted (a string: `fillna` has already run, so the
cell is never missing), the bucket `date`, and the derived `time` in hours. -/
structure Row where
  key : String
  date : String
  time : ℚ
deriving DecidableEq

/-- Ascending comparison of `(dimension-value, total time)` pairs by time,
the key of `sort_values(by='time')`. -/
def timeLe (a b : String × ℚ) : Prop := a.2 ≤ b.2

instance : DecidableRel timeLe := fun a b => inferInstanceAs (Decidable (a.2 ≤ b.2))

instance : IsTotal (String × ℚ) timeLe := ⟨fun a b => le_total a.2 b.2⟩

instance : IsTrans (String × ℚ) timeLe := ⟨fun _ _ _ h h' => le_trans h h'⟩

/-- Descending comparison by time, the key of
`sort_values(by='time', ascending=False)`. -/
def timeGe (a b : String × ℚ) : Prop := b.2 ≤ a.2

instance : DecidableRel timeGe := fun a b => inferInstanceAs (Decidable (b.2 ≤ a.2))

instance : IsTotal (String × ℚ) timeGe := ⟨fun a b => le_total b.2 a.2⟩

instance : IsTrans (String × ℚ) timeGe := ⟨fun _ _ _ h h' => le_trans h' h⟩

/-- Ascending comparison of pairs by dimension-value, the key of
`sort_values` by the group label. -/
def nameLe (a b : String × ℚ) : Prop := a.1 ≤ b.1

instance : DecidableRel nameLe := fun a b => inferInstanceAs (Decidable (a.1 ≤ b.1))

instance : IsTotal (String × ℚ) nameLe := ⟨fun a b => le_total a.1 b.1⟩

instance : IsTrans (String × ℚ) nameLe := ⟨fun _ _ _ h h' => le_trans h h'⟩

/-- Total `time` over the rows whose dimension column equals `k`: the `time`
cell of row `k` in `df.groupby(col).sum()`. -/
def sumTimeKey (k : String) (rows : List Row) : ℚ :=
  ((rows.filter (fun r => r.key = k)).map Row.time).sum

/-- Total `time` over the rows whose dimension column equals `k` and whose
`date` equals `d`: the value plotted for label `k` at bucket `d`
(`df[df[plot] == label].groupby('date').sum()` at `date = d`; an absent
bucket contributes `0`). -/
def sumTimeKeyDate (k d : String) (rows : List Row) : ℚ :=
  ((rows.filter (fun r => r.key = k ∧ r.date = d)).map Row.time).sum

/-- Total `time` over the rows whose `date` equals `d`: the `time` cell of
row `d` in `df.groupby('date').sum()`. -/
def sumTimeDate (d : String) (rows : List Row) : ℚ :=
  ((rows.filter (fun r => r.date = d)).map Row.time).sum

/-- The distinct values of the dimension column, in first-occurrence order. -/
def distinctKeys (rows : List Row) : List String :=
  (rows.map Row.key).dedup

/-- `df.groupby(col).sum()` restricted to the `time` column: one
`(dimension-value, total time)` pair per distinct value of the column,
index sorted ascending (pandas `groupby` sorts the group keys). -/
def groupbySum (rows : List Row) : List (String × ℚ) :=
  (List.insertionSort (· ≤ ·) (distinctKeys rows)).map
    (fun k => (k, sumTimeKey k rows))

/-- `df.groupby(plot).sum().sort_values(by='time').index.values[::-1]`
(watson_graphing.py:164-165): labels from most total time to least. -/
def dfTypeSortedTime (rows : List Row) : List String :=
  ((List.insertionSort timeLe (groupbySum rows)).reverse).map Prod.fst

/-- `df.groupby(plot).sum().sort_values(by=plot).index.values[::-1]`
(watson_graphing.py:167-168): labels in reverse-alphabetical order. -/
def dfTypeSortedName (rows : List Row) : List String :=
  ((List.insertionSort nameLe (groupbySum rows)).reverse).map Prod.fst

/-- The `--sort` argument (argparse `choices=['time', 'name']`). -/
inductive SortMode where
  | time
  | name
deriving DecidableEq

/-- `df_type_sorted` (watson_graphing.py:162-168) for either sort mode. -/
def dfTypeSorted (mode : SortMode) (rows : List Row) : List String :=
  match mode with
  | .time => dfTypeSortedTime rows
  | .name => dfTypeSortedName rows

/-- `df.groupby('project').sum().sort_values(by='project')
.sort_values(by='time', ascending=False)` (watson_graphing.py:229): the
totals-by-project table of the second figure. -/
def byProject (rows : List Row) : List (String × ℚ) :=
  List.insertionSort timeGe (List.insertionSort nameLe (groupbySum rows))

/-- Modelled from the spec: the single sort the spec says is the intended
behaviour, `df.groupby('project').sum().sort_values(by='time',
ascending=False)` with no preceding sort by name. -/
def byProjectSingleSort (rows : List Row) : List (String × ℚ) :=
  List.insertionSort timeGe (groupbySum rows)

/-- `fillna(value='None')` on one possibly-missing string cell
(watson_graphing.py:160): a missing value becomes the literal `"None"`. -/
def fillna (v : Option String) : String :=
  v.getD "None"

/-- Project truncation (watson_graphing.py:108-110): the regex `\..*` is
replaced with the empty string, keeping what stands before the first `'.'`. -/
def truncateProject (p : String) : String :=
  String.mk (p.data.takeWhile (fun c => c ≠ '.'))

/-- The `attributes` column (watson_graphing.py:102) as it stands after
`fillna` (watson_graphing.py:160): `.str.join(', ')` is applied to the list
`find_attributes` returns, so the cell always holds a string (possibly `""`)
and is never missing, and `fillna` leaves it unchanged. -/
def filledAttributes (t : Option (List String)) : Except Unit String :=
  match find_attributes t with
  | .error e => .error e
  | .ok a => .ok (String.intercalate ", " a)

/-- The `location` column (watson_graphing.py:105) after `fillna`
(watson_graphing.py:160): a row with no location is missing there and
becomes `"None"`. -/
def filledLocation (t : Option (List String)) : Except Unit String :=
  match find_location t with
  | .error e => .error e
  | .ok loc => .ok (fillna loc)

/-! ### Helper lemmas -/

lemma firstChar_of_ne {s : String} (h : s ≠ "") :
    ∃ c cs, s.data = c :: cs ∧ firstChar s = .ok c := by
  match hs : s.data with
  | [] =>
      exact absurd (String.ext (hs.trans rfl)) h
  | c :: cs =>
      exact ⟨c, cs, rfl, by simp [firstChar, hs]⟩

lemma startsAt_iff {s : String} {c : Char} {cs : List Char} (hs : s.data = c :: cs) :
    startsAt s = (c == '@') := by
  simp [startsAt, hs]

lemma findLocationGo_eq {l : List String} (h : ∀ t ∈ l, t ≠ "") :
    findLocationGo l = .ok (l.find? startsAt) := by
  induction l with
  | nil => rfl
  | cons i rest ih =>
      have hi : i ≠ "" := h i (List.mem_cons_self i rest)
      obtain ⟨c, cs, hd, hfc⟩ := firstChar_of_ne hi
      have hrest := ih (fun t ht => h t (List.mem_cons_of_mem i ht))
      have hsa := startsAt_iff hd
      by_cases hc : c = '@'
      · simp [findLocationGo, hfc, hc, List.find?_cons, hsa]
      · simp [findLocationGo, hfc, hc, List.find?_cons, hsa, hrest]

lemma findAttributesGo_eq {l : List String} (h : ∀ t ∈ l, t ≠ "") :
    findAttributesGo l = .ok (attrsOf l) := by
  induction l with
  | nil => rfl
  | cons i rest ih =>
      have hi : i ≠ "" := h i (List.mem_cons_self i rest)
      obtain ⟨c, cs, hd, hfc⟩ := firstChar_of_ne hi
      have hrest := ih (fun t ht => h t (List.mem_cons_of_mem i ht))
      have hsa := startsAt_iff hd
      by_cases hc : c = '@'
      · simp [findAttributesGo, hfc, hc, hrest, attrsOf, List.filter_cons, hsa]
      · simp [findAttributesGo, hfc, hc, hrest, attrsOf, List.filter_cons, hsa]

lemma find_location_eq {l : List String} (h : ∀ t ∈ l, t ≠ "") :
    find_location (some l) = .ok (locOf l) :=
  findLocationGo_eq h

lemma find_attributes_eq {l : List String} (h : ∀ t ∈ l, t ≠ "") :
    find_attributes (some l) = .ok (attrsOf l) :=
  findAttributesGo_eq h

lemma groupbySum_snd {rows : List Row} {p : String × ℚ} (hp : p ∈ groupbySum rows) :
    p.2 = sumTimeKey p.1 rows := by
  simp only [groupbySum, List.mem_map] at hp
  obtain ⟨k, _, rfl⟩ := hp
  rfl

lemma groupbySum_map_fst (rows : List Row) :
    (groupbySum rows).map Prod.fst = List.insertionSort (· ≤ ·) (distinctKeys rows) := by
  simp [groupbySum, List.map_map, Function.comp_def]

lemma groupbySum_fst_nodup (rows : List Row) :
    ((groupbySum rows).map Prod.fst).Nodup := by
  rw [groupbySum_map_fst]
  exact (List.perm_insertionSort (· ≤ ·) (distinctKeys rows)).nodup_iff.mpr
    (List.nodup_dedup _)

lemma groupbySum_pairwise_ne (rows : List Row) :
    List.Pairwise (fun p q : String × ℚ => p.1 ≠ q.1) (groupbySum rows) :=
  (List.pairwise_map).mp (groupbySum_fst_nodup rows)

lemma groupbySum_sorted_name (rows : List Row) :
    List.Sorted nameLe (groupbySum rows) := by
  have h : List.Pairwise (· ≤ ·) ((groupbySum rows).map Prod.fst) := by
    rw [groupbySum_map_fst]
    exact List.sorted_insertionSort (· ≤ ·) (distinctKeys rows)
  have h2 : List.Pairwise (fun p q : String × ℚ => p.1 ≤ q.1) (groupbySum rows) :=
    (List.pairwise_map).mp h
  exact h2

lemma sumTimeKeyDate_cons (k d : String) (r : Row) (rest : List Row) :
    sumTimeKeyDate k d (r :: rest) =
      (if r.key = k ∧ r.date = d then r.time else 0) + sumTimeKeyDate k d rest := by
  by_cases h : r.key = k ∧ r.date = d <;>
    simp [sumTimeKeyDate, List.filter_cons, h]

lemma sumTimeDate_cons (d : String) (r : Row) (rest : List Row) :
    sumTimeDate d (r :: rest) =
      (if r.date = d then r.time else 0) + sumTimeDate d rest := by
  by_cases h : r.date = d <;>
    simp [sumTimeDate, List.filter_cons, h]

lemma sum_map_ite_zero (a : String) (P : Prop) [Decidable P] (t : ℚ)
    {K : List String} (ha : a ∉ K) :
    (K.map (fun k => if a = k ∧ P then t else 0)).sum = 0 := by
  induction K with
  | nil => rfl
  | cons k ks ih =>
      have hak : a ≠ k := fun hh => ha (hh ▸ List.mem_cons_self k ks)
      have ha' : a ∉ ks := fun hh => ha (List.mem_cons_of_mem k hh)
      simp [hak, ih ha']

lemma sum_map_ite_single {K : List String} (hnd : K.Nodup) {a : String}
    (ha : a ∈ K) (P : Prop) [Decidable P] (t : ℚ) :
    (K.map (fun k => if a = k ∧ P then t else 0)).sum = if P then t else 0 := by
  induction K with
  | nil => cases ha
  | cons k ks ih =>
      rw [List.map_cons, List.sum_cons]
      by_cases hak : a = k
      · subst hak
        have hnotin : a ∉ ks := (List.nodup_cons.mp hnd).1
        rw [sum_map_ite_zero a P t hnotin]
        simp
      · have ha' : a ∈ ks := (List.mem_cons.mp ha).resolve_left hak
        rw [ih (List.nodup_cons.mp hnd).2 ha']
        simp [hak]

lemma sum_fibers {K : List String} (d : String) (rows : List Row)
    (hnd : K.Nodup) (hmem : ∀ r ∈ rows, r.key ∈ K) :
    (K.map (fun k => sumTimeKeyDate k d rows)).sum = sumTimeDate d rows := by
  induction rows with
  | nil => simp [sumTimeKeyDate, sumTimeDate]
  | cons r rest ih =>
      have hrK : r.key ∈ K := hmem r (List.mem_cons_self r rest)
      have hrest : ∀ x ∈ rest, x.key ∈ K :=
        fun x hx => hmem x (List.mem_cons_of_mem r hx)
      calc (K.map (fun k => sumTimeKeyDate k d (r :: rest))).sum
          = (K.map (fun k =>
              (if r.key = k ∧ r.date = d then r.time else 0) +
                sumTimeKeyDate k d rest)).sum := by
            simp only [sumTimeKeyDate_cons]
        _ = (K.map (fun k => if r.key = k ∧ r.date = d then r.time else 0)).sum +
              (K.map (fun k => sumTimeKeyDate k d rest)).sum := List.sum_map_add
        _ = (if r.date = d then r.time else 0) + sumTimeDate d rest := by
            rw [sum_map_ite_single hnd hrK (r.date = d) r.time, ih hrest]
        _ = sumTimeDate d (r :: rest) := (sumTimeDate_cons d r rest).symm

/-! ### Claim theorems -/

/-- C10: for a record whose raw tag value is missing (not a list after the
split, modelled as `none`), the helpers are total and neutral: `striplist`
returns the input unchanged, `find_location` finds no location, and
`find_attributes` returns the empty list. -/
theorem missing_tags_neutral :
    striplist none = none ∧
    find_location none = .ok none ∧
    find_attributes none = .ok [] :=
  ⟨rfl, rfl, rfl⟩

/-- C3 counterexample: on the list `[""]` (what the raw tag string `""`
splits into) both helpers hit the first-character check of the empty token
and raise an index error — there is no guard, so the claim as stated is
false. -/
theorem find_location_empty_token_error :
    find_location (some [""]) = .error () ∧
    find_attributes (some [""]) = .error () :=
  ⟨rfl, rfl⟩

/-- C3 (amended): `find_location` and `find_attributes` are total on every
list of non-empty tokens, computing the first `'@'`-token and the
non-`'@'`-tokens; a list containing the empty token instead reaches the
unguarded first-character check. -/
theorem tag_helpers_total_on_nonempty (l : List String) (h : ∀ t ∈ l, t ≠ "") :
    find_location (some l) = .ok (locOf l) ∧
    find_attributes (some l) = .ok (attrsOf l) :=
  ⟨find_location_eq h, find_attributes_eq h⟩

theorem tag_helpers_total_on_nonempty_witness :
    (∀ t ∈ ["@office", "deep"], t ≠ "") ∧
    (find_location (some ["@office", "deep"]) = .ok (locOf ["@office", "deep"]) ∧
     find_attributes (some ["@office", "deep"]) = .ok (attrsOf ["@office", "deep"])) :=
  ⟨by decide, tag_helpers_total_on_nonempty ["@office", "deep"] (by decide)⟩

/-- C1 counterexample: for a span of 25 hours (90000 seconds, given in
nanoseconds) the code's `.dt.seconds`-based duration is 1 hour, not the
25 hours the claim's `floor(total_seconds) / 3600` gives — whole days are
discarded by the seconds component. -/
theorem duration_25h_counterexample :
    durationHours 90000000000000 ≠ durationSpecHours 90000000000000 := by
  norm_num [durationHours, durationSpecHours, dtSeconds]

/-- C1 (amended): the derived duration equals
`floor((stop-start).total_seconds()) / 3600` whenever the elapsed whole
seconds are below 86400, i.e. for spans under 24 hours; in general the code
divides the seconds component `floor(total_seconds) mod 86400` by 3600. -/
theorem duration_eq_spec_below_24h (totalNs : ℕ)
    (h : totalNs / 1000000000 < 86400) :
    durationHours totalNs = durationSpecHours totalNs := by
  unfold durationHours durationSpecHours dtSeconds
  rw [Nat.mod_eq_of_lt h]

theorem duration_eq_spec_below_24h_witness :
    9000000000000 / 1000000000 < 86400 ∧
    durationHours 9000000000000 = durationSpecHours 9000000000000 :=
  ⟨by decide, duration_eq_spec_below_24h 9000000000000 (by decide)⟩

/-- C4: the argument normalizer is pure and total: it preserves length and
order, prefixes exactly the tokens that equal one of the `flag_args` with
`--`, passes every other token through unchanged; in particular `week`
becomes `--week` and `2024-01-01` stays `2024-01-01`. -/
theorem parse_args_normalizer (args : List String) :
    (parse_args args).length = args.length ∧
    parse_args args = args.map (fun a => if a ∈ flag_args then "--" ++ a else a) ∧
    parse_args ["week"] = ["--week"] ∧
    parse_args ["2024-01-01"] = ["2024-01-01"] := by
  have hmap : ∀ l : List String,
      parse_args l = l.map (fun a => if a ∈ flag_args then "--" ++ a else a) := by
    intro l
    induction l with
    | nil => rfl
    | cons a rest ih => simp [parse_args, ih]
  refine ⟨?_, hmap args, by decide, by decide⟩
  rw [hmap args, List.length_map]

/-- C8 counterexample: passing `--plot all` explicitly makes `args.plot` the
list `['all']`, which is not equal to the string `'all'`, so the panel list
is `['all']` and not the four fixed panels — the claim as stated is false
for the explicit form. -/
theorem plot_all_explicit_counterexample :
    subplotsOf (.list ["all"]) = ["all"] ∧
    subplotsOf (.list ["all"]) ≠ ["hours", "project", "attributes", "location"] :=
  ⟨rfl, by decide⟩

/-- C8 (amended): exactly the argparse default — the plain string `'all'` —
yields the four fixed panels hours, project, attributes, location in that
order; any explicitly passed selection yields exactly the tokens passed, in
order, so explicit `--plot all` yields the single panel `['all']`. -/
theorem subplots_selection :
    subplotsOf (.str "all") = ["hours", "project", "attributes", "location"] ∧
    (∀ l : List String, subplotsOf (.list l) = l) := by
  refine ⟨rfl, fun l => ?_⟩
  simp [subplotsOf, plotEqAllStr]

/-- C7 counterexample: a record whose only tag is a location (`@home`) gets
attributes cell `""` — the join of the empty attribute list — which is a
present string, so `fillna` leaves it and the record is grouped under the
empty string, not under `"None"`. -/
theorem attributes_empty_string_counterexample :
    filledAttributes (some ["@home"]) = .ok "" ∧
    filledLocation (some ["@home"]) = .ok "@home" ∧
    ("" : String) ≠ "None" :=
  ⟨rfl, rfl, by decide⟩

/-- C7 (amended): after `fillna`, a missing location and a missing project
(truncated or not) hold the literal `"None"`; the attributes cell is never
missing — it is the comma-join of the attribute list, so a record with no
attribute tags holds the empty string `""`, not `"None"`. -/
theorem fillna_grouping_fields (t : Option (List String)) (p : Option String)
    (hloc : find_location t = .ok none) (hp : p = none) :
    filledLocation t = .ok "None" ∧
    fillna (p.map truncateProject) = "None" ∧
    fillna p = "None" ∧
    (find_attributes t = .ok [] → filledAttributes t = .ok "") := by
  subst hp
  refine ⟨?_, rfl, rfl, fun ha => ?_⟩
  · simp [filledLocation, hloc, fillna]
  · simp [filledAttributes, ha]
    decide

theorem fillna_grouping_fields_witness :
    find_location (some ["focus"]) = .ok none ∧
    (none : Option String) = none ∧
    (filledLocation (some ["focus"]) = .ok "None" ∧
     fillna ((none : Option String).map truncateProject) = "None" ∧
     fillna (none : Option String) = "None" ∧
     (find_attributes (some ["focus"]) = .ok [] →
       filledAttributes (some ["focus"]) = .ok "")) :=
  ⟨rfl, rfl, fillna_grouping_fields (some ["focus"]) none rfl rfl⟩

/-- C2 counterexample: with two location tokens `["@a", "@b"]` the token
`"@b"` is lost: `find_attributes` keeps nothing (both begin with `'@'`) and
`find_location` returns only the first `'@'`-token, so the union misses
`"@b"` — the claim as stated is false when several tokens begin with
`'@'`. -/
theorem tag_union_two_locations_counterexample :
    find_attributes (some ["@a", "@b"]) = .ok [] ∧
    find_location (some ["@a", "@b"]) = .ok (some "@a") ∧
    "@b" ∈ ["@a", "@b"] ∧
    "@b" ∉ ([] : List String) ∧
    some "@a" ≠ some "@b" :=
  ⟨rfl, rfl, by decide, by decide, by decide⟩

/-- C2 (amended): for a list of trimmed non-empty tokens of which at most
one begins with `'@'`, the union of the attributes and the location (absent
location contributing nothing) is, as a set, exactly the token set. -/
theorem tag_union_single_location (l : List String) (hne : ∀ t ∈ l, t ≠ "")
    (hone : (l.filter startsAt).length ≤ 1) :
    find_attributes (some l) = .ok (attrsOf l) ∧
    find_location (some l) = .ok (locOf l) ∧
    (∀ x, (x ∈ attrsOf l ∨ locOf l = some x) ↔ x ∈ l) := by
  refine ⟨find_attributes_eq hne, find_location_eq hne, fun x => ?_⟩
  constructor
  · rintro (hx | hx)
    · exact (List.mem_filter.mp hx).1
    · exact List.mem_of_find?_eq_some hx
  · intro hx
    by_cases hsx : startsAt x = true
    · right
      have hsome : (l.find? startsAt).isSome := List.find?_isSome.mpr ⟨x, hx, hsx⟩
      obtain ⟨y, hy⟩ := Option.isSome_iff_exists.mp hsome
      have hyf : y ∈ l.filter startsAt :=
        List.mem_filter.mpr ⟨List.mem_of_find?_eq_some hy, List.find?_some hy⟩
      have hxf : x ∈ l.filter startsAt := List.mem_filter.mpr ⟨hx, hsx⟩
      have hlen1 : (l.filter startsAt).length = 1 :=
        le_antisymm hone (List.length_pos.mpr (List.ne_nil_of_mem hxf))
      obtain ⟨a, hae⟩ := List.length_eq_one.mp hlen1
      rw [hae, List.mem_singleton] at hyf hxf
      rw [locOf, hy, hyf, ← hxf]
    · left
      refine List.mem_filter.mpr ⟨hx, ?_⟩
      simp [attrsOf] at hsx ⊢
      simp [hsx]

theorem tag_union_single_location_witness :
    (∀ t ∈ ["@home", "focus"], t ≠ "") ∧
    (["@home", "focus"].filter startsAt).length ≤ 1 ∧
    (find_attributes (some ["@home", "focus"]) = .ok (attrsOf ["@home", "focus"]) ∧
     find_location (some ["@home", "focus"]) = .ok (locOf ["@home", "focus"]) ∧
     (∀ x, (x ∈ attrsOf ["@home", "focus"] ∨ locOf ["@home", "focus"] = some x) ↔
       x ∈ ["@home", "focus"])) :=
  ⟨by decide, by decide,
    tag_union_single_location ["@home", "focus"] (by decide) (by decide)⟩

/-- C5: the label order of a non-hours panel: with `--sort time` the
dimension-values come in non-increasing order of their total summed
duration, with `--sort name` in strictly reverse-lexicographic order. -/
theorem sort_order_panels (rows : List Row) :
    List.Chain' (fun a b => sumTimeKey b rows ≤ sumTimeKey a rows)
      (dfTypeSorted SortMode.time rows) ∧
    List.Chain' (fun a b : String => b < a) (dfTypeSorted SortMode.name rows) := by
  constructor
  · have h1 : List.Pairwise timeLe (List.insertionSort timeLe (groupbySum rows)) :=
      List.sorted_insertionSort timeLe (groupbySum rows)
    have h2 : List.Pairwise (fun p q : String × ℚ => timeLe q p)
        (List.insertionSort timeLe (groupbySum rows)).reverse :=
      List.pairwise_reverse.mpr h1
    have hmem : ∀ p ∈ (List.insertionSort timeLe (groupbySum rows)).reverse,
        p.2 = sumTimeKey p.1 rows := by
      intro p hp
      exact groupbySum_snd
        (((List.perm_insertionSort timeLe (groupbySum rows)).mem_iff).mp
          (List.mem_reverse.mp hp))
    have h3 : List.Pairwise
        (fun p q : String × ℚ => sumTimeKey q.1 rows ≤ sumTimeKey p.1 rows)
        (List.insertionSort timeLe (groupbySum rows)).reverse := by
      refine List.Pairwise.imp_of_mem ?_ h2
      intro a b ha hb hr
      rw [← hmem a ha, ← hmem b hb]
      exact hr
    have h4 : List.Pairwise
        (fun a b : String => sumTimeKey b rows ≤ sumTimeKey a rows)
        (((List.insertionSort timeLe (groupbySum rows)).reverse).map Prod.fst) :=
      (List.pairwise_map).mpr h3
    exact h4.chain'
  · have heq : List.insertionSort nameLe (groupbySum rows) = groupbySum rows :=
      (groupbySum_sorted_name rows).insertionSort_eq
    have hlt : List.Pairwise (fun p q : String × ℚ => p.1 < q.1)
        (groupbySum rows) := by
      have hand := (groupbySum_sorted_name rows).and (groupbySum_pairwise_ne rows)
      exact hand.imp (fun hpq => lt_of_le_of_ne hpq.1 hpq.2)
    have h2 : List.Pairwise (fun p q : String × ℚ => q.1 < p.1)
        (groupbySum rows).reverse := List.pairwise_reverse.mpr hlt
    have h4 : List.Pairwise (fun a b : String => b < a)
        ((groupbySum rows).reverse.map Prod.fst) := (List.pairwise_map).mpr h2
    have hrw : dfTypeSorted SortMode.name rows =
        (groupbySum rows).reverse.map Prod.fst := by
      simp [dfTypeSorted, dfTypeSortedName, heq]
    rw [hrw]
    exact h4.chain'

/-- C6: for every fixed bucket-date, summing the per-(bucket, value) durations
over all dimension-values (the `"None"` placeholder is just one of the
values) gives the total duration of the records in that bucket — the
aggregation partitions the records and drops none. -/
theorem aggregation_sum_invariant (rows : List Row) (d : String) :
    ((distinctKeys rows).map (fun k => sumTimeKeyDate k d rows)).sum =
      sumTimeDate d rows := by
  refine sum_fibers d rows ?_ ?_
  · exact List.nodup_dedup _
  · intro r hr
    exact List.mem_dedup.mpr (List.mem_map_of_mem Row.key hr)

/-- C9: in totals mode the sort by project name followed by the sort by
descending total duration equals the single sort by descending total
duration (the alphabetical sort is discarded: `groupby` already emitted the
names sorted, so the first sort is the identity), and the resulting table is
non-increasing in total summed duration. -/
theorem totals_sort_equivalence (rows : List Row) :
    byProject rows = byProjectSingleSort rows ∧
    List.Chain' timeGe (byProject rows) ∧
    (∀ p ∈ byProject rows, p.2 = sumTimeKey p.1 rows) := by
  have heq : List.insertionSort nameLe (groupbySum rows) = groupbySum rows :=
    (groupbySum_sorted_name rows).insertionSort_eq
  refine ⟨?_, ?_, ?_⟩
  · simp [byProject, byProjectSingleSort, heq]
  · have h : List.Pairwise timeGe (byProject rows) := by
      unfold byProject
      exact List.sorted_insertionSort timeGe _
    exact h.chain'
  · intro p hp
    unfold byProject at hp
    rw [heq] at hp
    exact groupbySum_snd
      (((List.perm_insertionSort timeGe (groupbySum rows)).mem_iff).mp hp)

end WatsonGraphing
